import Mathlib

/-!
Verification of the write path of a durable log: the block-structured record
emitter (`db/log_writer.cc`, `log::Writer`) and the buffered, checksummed
file writer (`file/writable_file_writer.cc`, `WritableFileWriter`).

Bytes are modelled as natural numbers, byte buffers as `List Nat`, machine
integers as `Nat` with explicit reduction modulo `2 ^ 32` where the source
truncates, and fallible operations return `Option`/`Bool` statuses driven by
explicit oracles for the sink's results.
-/

namespace RocksLog

/-- Modelled from the spec: the CRC32C implementation (`util/crc32c.h`:
`Value`, `Extend`, `Crc32cCombine`, `Mask`) is an external collaborator whose
source is not part of this repository slice; §4.4 of the spec states its
contract: `value(bytes)` is the checksum of a buffer, `extend(seed, bytes)` is
the incremental update (so `value (a ++ b) = extend (value a) b`),
`combine(c1, c2, len2)` is the CRC of the concatenation when `c2 = value b2`
and `len2 = |b2|`, and `mask c = ((c >>> 15) ||| (c <<< 17)) + 0xA282EAD8`
modulo `2 ^ 32`.  We model the checksum family as a 32-bit polynomial rolling
hash, which satisfies exactly this contract (proved below as
`crcExtend_value` and `crcCombine_value`), with `mask` implemented bit-exactly
as specified. -/
def crcM : Nat := 4294967296

/-- One step of the modelled CRC: absorb a byte into the running state. -/
def crcStep (c b : Nat) : Nat := (c * 257 + b + 1) % crcM

/-- Modelled from the spec: `crc32c::Extend(seed, bytes)`, the incremental
checksum update. -/
def crcExtend (seed : Nat) (bs : List Nat) : Nat := bs.foldl crcStep seed

/-- Modelled from the spec: `crc32c::Value(bytes) = Extend(0, bytes)`. -/
def crcValue (bs : List Nat) : Nat := crcExtend 0 bs

/-- Modelled from the spec: `crc32c::Crc32cCombine(c1, c2, len2)`, the CRC of
the concatenation of two buffers given their CRCs and the second length. -/
def crcCombine (c1 c2 len2 : Nat) : Nat := (c1 * 257 ^ len2 + c2) % crcM

/-- Modelled from the spec: `crc32c::Mask(c) = ((c >> 15) | (c << 17)) +
0xA282EAD8 (mod 2^32)`; for a 32-bit `c` the two rotated halves occupy
disjoint bit ranges, so the bitwise-or is addition. -/
def maskCrc (c : Nat) : Nat :=
  (c % crcM / 32768 + c % 32768 * 131072 + 2726488792) % crcM

/-- Little-endian 4-byte encoding of the low 32 bits of a value, as
`EncodeFixed32` in `util/coding.h` writes them. -/
def encodeFixed32 (v : Nat) : List Nat :=
  [v % 256, v / 256 % 256, v / 65536 % 256, v / 16777216 % 256]

/-- Little-endian decoding of (the first) four bytes. -/
def decodeFixed32 (bs : List Nat) : Nat :=
  bs.getD 0 0 + bs.getD 1 0 * 256 + bs.getD 2 0 * 65536 + bs.getD 3 0 * 16777216

theorem crcM_pos : 0 < crcM := by decide

theorem crcStep_lt (c b : Nat) : crcStep c b < crcM :=
  Nat.mod_lt _ crcM_pos

theorem crcExtend_append (s : Nat) (a b : List Nat) :
    crcExtend s (a ++ b) = crcExtend (crcExtend s a) b := by
  simp [crcExtend, List.foldl_append]

theorem crcExtend_lt (s : Nat) (bs : List Nat) (h : s < crcM) :
    crcExtend s bs < crcM := by
  induction bs generalizing s with
  | nil => exact h
  | cons b bs ih => exact ih (crcStep s b) (crcStep_lt s b)

theorem crcValue_lt (bs : List Nat) : crcValue bs < crcM :=
  crcExtend_lt 0 bs (by decide)

theorem crcValue_nil : crcValue [] = 0 := rfl

theorem mod_mul_add_mod (x y z : Nat) :
    (x % crcM * y + z) % crcM = (x * y + z) % crcM := by
  rw [Nat.add_mod, Nat.mod_mul_mod, ← Nat.add_mod]

theorem crcExtend_eq_shift (bs : List Nat) :
    forall s : Nat, s < crcM ->
      crcExtend s bs = (s * 257 ^ bs.length + crcValue bs) % crcM := by
  induction bs with
  | nil =>
      intro s hs
      simpa [crcExtend, crcValue] using (Nat.mod_eq_of_lt hs).symm
  | cons b bs ih =>
      intro s hs
      have h1 : crcExtend s (b :: bs) = crcExtend (crcStep s b) bs := rfl
      have h2 : crcValue (b :: bs) = crcExtend (crcStep 0 b) bs := rfl
      have e1 : crcStep s b = (s * 257 + b + 1) % crcM := rfl
      have e2 : crcStep 0 b = (b + 1) % crcM := by simp [crcStep]
      rw [h1, ih (crcStep s b) (crcStep_lt s b), h2,
        ih (crcStep 0 b) (crcStep_lt 0 b), e1, e2, mod_mul_add_mod,
        mod_mul_add_mod, Nat.add_mod_mod, List.length_cons]
      congr 1
      ring

theorem crcExtend_value (a b : List Nat) :
    crcExtend (crcValue a) b = crcValue (a ++ b) :=
  (crcExtend_append 0 a b).symm

theorem crcCombine_value (a b : List Nat) :
    crcCombine (crcValue a) (crcValue b) b.length = crcValue (a ++ b) := by
  rw [← crcExtend_value, crcExtend_eq_shift b (crcValue a) (crcValue_lt a)]
  rfl

theorem maskCrc_lt (c : Nat) : maskCrc c < crcM :=
  Nat.mod_lt _ crcM_pos

theorem decode_encodeFixed32 (v : Nat) :
    decodeFixed32 (encodeFixed32 v) = v % crcM := by
  simp only [encodeFixed32, decodeFixed32, List.getD, List.get?,
    Option.getD_some, crcM]
  omega

/-! ## Log writer (`db/log_writer.cc`) -/

/-- Record types as declared in `db/log_format.h` and read back by the log
reader: `kZeroType = 0`, `kFullType = 1`, `kFirstType = 2`, `kMiddleType = 3`,
`kLastType = 4`, `kRecyclableFullType = 5`, `kRecyclableFirstType = 6`,
`kRecyclableMiddleType = 7`, `kRecyclableLastType = 8`. -/
inductive RecordType where
  | zero
  | full
  | first
  | middle
  | last
  | recyclableFull
  | recyclableFirst
  | recyclableMiddle
  | recyclableLast
  deriving DecidableEq, Repr

/-- The byte value of each record type, as stored in header byte 6. -/
def RecordType.toByte : RecordType -> Nat
  | .zero => 0
  | .full => 1
  | .first => 2
  | .middle => 3
  | .last => 4
  | .recyclableFull => 5
  | .recyclableFirst => 6
  | .recyclableMiddle => 7
  | .recyclableLast => 8

/-- `kBlockSize` from `db/log_format.h`: the fixed physical block size. -/
def kBlockSize : Nat := 32768

/-- `kHeaderSize`: checksum (4B) + length (2B) + type (1B). -/
def kHeaderSize : Nat := 7

/-- `kRecyclableHeaderSize`: checksum (4B) + length (2B) + type (1B) +
log number (4B). -/
def kRecyclableHeaderSize : Nat := 11

/-- The per-type CRC seeds precomputed in the `Writer` constructor:
`type_crc_[i] = crc32c::Value(&t, 1)` for each type byte. -/
def typeCrc (t : RecordType) : Nat := crcValue [t.toByte]

/-- The header bytes formatted by `Writer::EmitPhysicalRecord` for type `t`,
log number `logNumber` and payload `payload`: bytes 0..3 hold the masked CRC
(little-endian), byte 4 is `n & 0xff`, byte 5 is `n >> 8`, byte 6 is the type
byte, and bytes 7..10 (recyclable types only, `t >= kRecyclableFullType`)
hold the low 32 bits of the log number little-endian.  The CRC starts from
`type_crc_[t]`, is extended with the 4 log-number bytes for recyclable types,
is combined with `payload_crc = crc32c::Value(ptr, n)` via `Crc32cCombine`,
and is masked for storage. -/
def recordHeader (t : RecordType) (logNumber : Nat) (payload : List Nat) :
    List Nat :=
  let n := payload.length
  let crc0 := typeCrc t
  let crc1 :=
    if t.toByte < 5 then crc0
    else crcExtend crc0 (encodeFixed32 logNumber)
  let payloadCrc := crcValue payload
  let crc := maskCrc (crcCombine crc1 payloadCrc n)
  encodeFixed32 crc ++ [n % 256, n / 256 % 256, t.toByte]
    ++ (if t.toByte < 5 then [] else encodeFixed32 logNumber)

/-- `Writer::EmitPhysicalRecord` as a transformer of `block_offset_`, with
the outcomes of the two file-writer `Append` calls given by the oracle bits
`ok1` (header append) and `ok2` (payload append; only attempted when the
header append succeeded).  Returns the `IOStatus` (as a `Bool`), the new
`block_offset_`, and the byte strings whose append was attempted.  In the
source, `block_offset_ += header_size + n` runs unconditionally, after both
appends, regardless of their status. -/
def emitPhysicalRecord (t : RecordType) (logNumber : Nat)
    (payload : List Nat) (bo : Nat) (ok1 ok2 : Bool) :
    Bool × Nat × List (List Nat) :=
  let headerSz := if t.toByte < 5 then kHeaderSize else kRecyclableHeaderSize
  let header := recordHeader t logNumber payload
  let (status, appends) :=
    if ok1 then (ok2, [header, payload]) else (false, [header])
  (status, bo + headerSz + payload.length, appends)

theorem take4_append (v : Nat) (rest : List Nat) :
    (encodeFixed32 v ++ rest).take 4 = encodeFixed32 v := rfl

/-- Claim C1: for every physical record emitted by `EmitPhysicalRecord` with
type `t`, log number `logNumber` and payload `payload`, the 4-byte
little-endian checksum stored in header bytes 0..3 equals
`mask (crc32c (type byte, then the 4 low log-number bytes if the type is
recyclable, then the payload))`, where the code derives it from the
precomputed `type_crc_[t]`, extends with the log-number bytes iff
`t >= kRecyclableFullType`, and combines with the payload CRC via
`Crc32cCombine` before masking. -/
theorem emitPhysicalRecord_checksum (t : RecordType) (logNumber : Nat)
    (payload : List Nat) :
    decodeFixed32 ((recordHeader t logNumber payload).take 4)
      = maskCrc (crcValue (t.toByte ::
          ((if t.toByte < 5 then ([] : List Nat)
            else encodeFixed32 logNumber) ++ payload))) := by
  have hmask : forall x : Nat,
      decodeFixed32 (encodeFixed32 (maskCrc x)) = maskCrc x := by
    intro x
    rw [decode_encodeFixed32, Nat.mod_eq_of_lt (maskCrc_lt x)]
  by_cases hb : t.toByte < 5
  · simp only [recordHeader, hb, if_true, List.append_assoc, take4_append,
      hmask, typeCrc]
    rw [crcCombine_value [t.toByte] payload, List.singleton_append,
      List.nil_append]
  · simp only [recordHeader, hb, if_false, List.append_assoc, take4_append,
      hmask, typeCrc]
    rw [crcExtend_value [t.toByte] (encodeFixed32 logNumber),
      crcCombine_value ([t.toByte] ++ encodeFixed32 logNumber) payload,
      List.append_assoc, List.singleton_append]

/-- Claim C9: `EmitPhysicalRecord` advances `block_offset_` by
`header_size + n` even when it returns an error status (the header append or
the payload append failed), so a failed `AddRecord` leaves `block_offset_`
accounting for fragment bytes that were never successfully appended. -/
theorem emitPhysicalRecord_advances_on_error (t : RecordType)
    (logNumber : Nat) (payload : List Nat) (bo : Nat) (ok1 ok2 : Bool)
    (hfail : (emitPhysicalRecord t logNumber payload bo ok1 ok2).1 = false) :
    (emitPhysicalRecord t logNumber payload bo ok1 ok2).2.1
      = bo + (if t.toByte < 5 then kHeaderSize else kRecyclableHeaderSize)
          + payload.length := rfl

/-- Witness for C9: a concrete failed emit (header append fails) still
advances `block_offset_` by `kHeaderSize + n`. -/
theorem emitPhysicalRecord_advances_on_error_witness :
    (emitPhysicalRecord .full 0 [65, 66] 0 false true).1 = false ∧
    (emitPhysicalRecord .full 0 [65, 66] 0 false true).2.1 = 0 + 7 + 2 :=
  ⟨by decide,
    emitPhysicalRecord_advances_on_error .full 0 [65, 66] 0 false true
      (by decide)⟩

/-- Header size chosen by `Writer::AddRecord`:
`recycle_log_files_ ? kRecyclableHeaderSize : kHeaderSize`. -/
def headerSize (recycle : Bool) : Nat :=
  if recycle then kRecyclableHeaderSize else kHeaderSize

/-- Record type chosen by `Writer::AddRecord` from the `begin`/`end` flags
and the `recycle_log_files_` setting. -/
def recTypeFor (recycle bg fin : Bool) : RecordType :=
  if bg && fin then (if recycle then .recyclableFull else .full)
  else if bg then (if recycle then .recyclableFirst else .first)
  else if fin then (if recycle then .recyclableLast else .last)
  else (if recycle then .recyclableMiddle else .middle)

/-- One observable action of `Writer::AddRecord`: either the zero-byte
trailer appended to close a block, or a physical record emitted via
`EmitPhysicalRecord` (recorded with its type, the `block_offset_` at the
time of the emit, and its fragment length). -/
inductive LogEvent where
  | trailer (bytes : List Nat)
  | record (t : RecordType) (boAtEmit : Nat) (len : Nat)
  deriving DecidableEq, Repr

/-- The fragmentation loop of `Writer::AddRecord` (the success path: every
file-writer append succeeds).  `left` is the number of payload bytes still
to emit, `bo` is `block_offset_`, `bg` is the `begin` flag.  Each iteration:
if `leftover = kBlockSize - block_offset_ < header_size`, append `leftover`
zero bytes as a trailer (when `leftover > 0`) and reset `block_offset_` to 0;
then emit a fragment of length `min left avail` where
`avail = kBlockSize - block_offset_ - header_size`, and loop while bytes
remain.  Structural recursion on an explicit fuel; `addRecord` below supplies
fuel sufficient for every input (`addLoop_total`). -/
def addLoop : Nat -> Bool -> Nat -> Nat -> Bool ->
    Option (List LogEvent × Nat)
  | 0, _, _, _, _ => none
  | fuel + 1, recycle, left, bo, bg =>
    let hs := headerSize recycle
    let evs0 : List LogEvent :=
      if kBlockSize - bo < hs then
        (if 0 < kBlockSize - bo then
          [.trailer (List.replicate (kBlockSize - bo) 0)]
        else [])
      else []
    let bo0 := if kBlockSize - bo < hs then 0 else bo
    let frag := min left (kBlockSize - bo0 - hs)
    let ev := LogEvent.record (recTypeFor recycle bg (left == frag)) bo0 frag
    if left - frag = 0 then some (evs0 ++ [ev], bo0 + hs + frag)
    else
      match addLoop fuel recycle (left - frag) (bo0 + hs + frag) false with
      | some (evs, bo2) => some (evs0 ++ ev :: evs, bo2)
      | none => none

/-- `Writer::AddRecord` for a slice of length `left`, starting from
`block_offset_ = bo` (fragmentation depends only on the slice length; the
loop always runs at least once, so an empty slice still emits one
zero-length record). -/
def addRecord (recycle : Bool) (left : Nat) (bo : Nat) :
    Option (List LogEvent × Nat) :=
  addLoop (left + 2) recycle left bo true

/-- The emitted records (type, offset at emit, fragment length) of an event
trace, in order. -/
def recordsOf (evs : List LogEvent) : List (RecordType × Nat × Nat) :=
  evs.filterMap (fun e =>
    match e with
    | .record t b n => some (t, b, n)
    | .trailer _ => none)

/-- The trailers of an event trace, in order. -/
def trailersOf (evs : List LogEvent) : List (List Nat) :=
  evs.filterMap (fun e =>
    match e with
    | .trailer bs => some bs
    | .record _ _ _ => none)

theorem recordsOf_append (a b : List LogEvent) :
    recordsOf (a ++ b) = recordsOf a ++ recordsOf b := by
  simp [recordsOf]

theorem trailersOf_append (a b : List LogEvent) :
    trailersOf (a ++ b) = trailersOf a ++ trailersOf b := by
  simp [trailersOf]

theorem recordsOf_record (t : RecordType) (b n : Nat) (evs : List LogEvent) :
    recordsOf (.record t b n :: evs) = (t, b, n) :: recordsOf evs := rfl

theorem recordsOf_single (t : RecordType) (b n : Nat) :
    recordsOf [.record t b n] = [(t, b, n)] := rfl

theorem recTypeFor_full (recycle : Bool) :
    recTypeFor recycle true true
      = (if recycle then RecordType.recyclableFull else .full) := by
  cases recycle <;> rfl

theorem recTypeFor_first (recycle : Bool) :
    recTypeFor recycle true false
      = (if recycle then RecordType.recyclableFirst else .first) := by
  cases recycle <;> rfl

theorem recTypeFor_middle (recycle : Bool) :
    recTypeFor recycle false false
      = (if recycle then RecordType.recyclableMiddle else .middle) := by
  cases recycle <;> rfl

theorem recTypeFor_last (recycle : Bool) :
    recTypeFor recycle false true
      = (if recycle then RecordType.recyclableLast else .last) := by
  cases recycle <;> rfl

theorem trailersOf_record (t : RecordType) (b n : Nat)
    (evs : List LogEvent) :
    trailersOf (.record t b n :: evs) = trailersOf evs := rfl

theorem recordsOf_switch (bo hs : Nat) :
    recordsOf (if kBlockSize - bo < hs then
        (if 0 < kBlockSize - bo then
          [LogEvent.trailer (List.replicate (kBlockSize - bo) 0)]
        else [])
      else []) = [] := by
  split
  · split <;> simp [recordsOf]
  · simp [recordsOf]

theorem trailersOf_switch (bo hs : Nat) :
    trailersOf (if kBlockSize - bo < hs then
        (if 0 < kBlockSize - bo then
          [LogEvent.trailer (List.replicate (kBlockSize - bo) 0)]
        else [])
      else []) = (if kBlockSize - bo < hs ∧ 0 < kBlockSize - bo then
        [List.replicate (kBlockSize - bo) 0] else []) := by
  by_cases h1 : kBlockSize - bo < hs
  · by_cases h2 : 0 < kBlockSize - bo <;>
      simp [h1, h2, trailersOf]
  · simp [h1, trailersOf]

/-- In a completed `AddRecord` loop the emitted fragment lengths sum to the
number of bytes handed in. -/
theorem addLoop_sum (fuel : Nat) :
    forall recycle left bo bg evs bo2,
      addLoop fuel recycle left bo bg = some (evs, bo2) ->
      ((recordsOf evs).map (fun r => r.2.2)).sum = left := by
  induction fuel with
  | zero =>
      intro recycle left bo bg evs bo2 h
      simp [addLoop] at h
  | succ fuel ih =>
      intro recycle left bo bg evs bo2 h
      simp only [addLoop] at h
      generalize hB : (if kBlockSize - bo < headerSize recycle then 0
        else bo) = bo0 at h
      generalize hE : (if kBlockSize - bo < headerSize recycle then
          (if 0 < kBlockSize - bo then
            [LogEvent.trailer (List.replicate (kBlockSize - bo) 0)]
          else [])
        else []) = evs0 at h
      have hE0 : recordsOf evs0 = [] := by
        rw [← hE]; exact recordsOf_switch bo (headerSize recycle)
      by_cases hterm :
          left - min left (kBlockSize - bo0 - headerSize recycle) = 0
      · rw [if_pos hterm] at h
        simp only [Option.some.injEq, Prod.mk.injEq] at h
        obtain ⟨he, _⟩ := h
        subst he
        rw [recordsOf_append, hE0, List.nil_append, recordsOf_single]
        simp only [List.map_cons, List.map_nil, List.sum_cons, List.sum_nil]
        omega
      · rw [if_neg hterm] at h
        cases hrec : addLoop fuel recycle
            (left - min left (kBlockSize - bo0 - headerSize recycle))
            (bo0 + headerSize recycle
              + min left (kBlockSize - bo0 - headerSize recycle)) false with
        | none => rw [hrec] at h; simp at h
        | some r =>
            rw [hrec] at h
            obtain ⟨evs', bo2'⟩ := r
            simp only [Option.some.injEq, Prod.mk.injEq] at h
            obtain ⟨he, _⟩ := h
            subst he
            have hsum := ih recycle _ _ _ _ _ hrec
            rw [recordsOf_append, hE0, List.nil_append, recordsOf_record]
            simp only [List.map_cons, List.sum_cons]
            omega

/-- Continuing the `AddRecord` loop with `begin = false` emits zero or more
MIDDLE fragments followed by exactly one LAST fragment. -/
theorem addLoop_types_cont (fuel : Nat) :
    forall recycle left bo evs bo2,
      addLoop fuel recycle left bo false = some (evs, bo2) ->
      exists k, (recordsOf evs).map (fun r => r.1)
        = List.replicate k
            (if recycle then RecordType.recyclableMiddle else .middle)
          ++ [if recycle then RecordType.recyclableLast else .last] := by
  induction fuel with
  | zero =>
      intro recycle left bo evs bo2 h
      simp [addLoop] at h
  | succ fuel ih =>
      intro recycle left bo evs bo2 h
      simp only [addLoop] at h
      generalize hB : (if kBlockSize - bo < headerSize recycle then 0
        else bo) = bo0 at h
      generalize hE : (if kBlockSize - bo < headerSize recycle then
          (if 0 < kBlockSize - bo then
            [LogEvent.trailer (List.replicate (kBlockSize - bo) 0)]
          else [])
        else []) = evs0 at h
      have hE0 : recordsOf evs0 = [] := by
        rw [← hE]; exact recordsOf_switch bo (headerSize recycle)
      by_cases hterm :
          left - min left (kBlockSize - bo0 - headerSize recycle) = 0
      · rw [if_pos hterm] at h
        have hfin : (left == min left
            (kBlockSize - bo0 - headerSize recycle)) = true :=
          beq_iff_eq.mpr (by omega)
        rw [hfin] at h
        simp only [Option.some.injEq, Prod.mk.injEq] at h
        obtain ⟨he, _⟩ := h
        subst he
        refine ⟨0, ?_⟩
        rw [recordsOf_append, hE0, List.nil_append, recordsOf_single,
          recTypeFor_last]
        simp
      · rw [if_neg hterm] at h
        have hfin : (left == min left
            (kBlockSize - bo0 - headerSize recycle)) = false := by
          simp only [beq_eq_false_iff_ne, ne_eq]
          omega
        rw [hfin] at h
        cases hrec : addLoop fuel recycle
            (left - min left (kBlockSize - bo0 - headerSize recycle))
            (bo0 + headerSize recycle
              + min left (kBlockSize - bo0 - headerSize recycle)) false with
        | none => rw [hrec] at h; simp at h
        | some r =>
            rw [hrec] at h
            obtain ⟨evs', bo2'⟩ := r
            simp only [Option.some.injEq, Prod.mk.injEq] at h
            obtain ⟨he, _⟩ := h
            subst he
            obtain ⟨k, hk⟩ := ih recycle _ _ _ _ hrec
            refine ⟨k + 1, ?_⟩
            rw [recordsOf_append, hE0, List.nil_append, recordsOf_record]
            simp only [List.map_cons, hk, recTypeFor_middle,
              List.replicate_succ, List.cons_append]

/-- Starting the `AddRecord` loop with `begin = true` emits either a single
FULL fragment or a FIRST fragment followed by the `begin = false`
continuation. -/
theorem addLoop_types (fuel : Nat) :
    forall recycle left bo evs bo2,
      addLoop fuel recycle left bo true = some (evs, bo2) ->
      ((recordsOf evs).map (fun r => r.1)
          = [if recycle then RecordType.recyclableFull else .full]) ∨
        (exists k, (recordsOf evs).map (fun r => r.1)
          = (if recycle then RecordType.recyclableFirst else .first)
            :: (List.replicate k
                (if recycle then RecordType.recyclableMiddle else .middle)
              ++ [if recycle then RecordType.recyclableLast else .last])) := by
  intro recycle left bo evs bo2 h
  cases fuel with
  | zero => simp [addLoop] at h
  | succ fuel =>
      simp only [addLoop] at h
      generalize hB : (if kBlockSize - bo < headerSize recycle then 0
        else bo) = bo0 at h
      generalize hE : (if kBlockSize - bo < headerSize recycle then
          (if 0 < kBlockSize - bo then
            [LogEvent.trailer (List.replicate (kBlockSize - bo) 0)]
          else [])
        else []) = evs0 at h
      have hE0 : recordsOf evs0 = [] := by
        rw [← hE]; exact recordsOf_switch bo (headerSize recycle)
      by_cases hterm :
          left - min left (kBlockSize - bo0 - headerSize recycle) = 0
      · rw [if_pos hterm] at h
        have hfin : (left == min left
            (kBlockSize - bo0 - headerSize recycle)) = true :=
          beq_iff_eq.mpr (by omega)
        rw [hfin] at h
        simp only [Option.some.injEq, Prod.mk.injEq] at h
        obtain ⟨he, _⟩ := h
        subst he
        left
        rw [recordsOf_append, hE0, List.nil_append, recordsOf_single,
          recTypeFor_full]
        simp
      · rw [if_neg hterm] at h
        have hfin : (left == min left
            (kBlockSize - bo0 - headerSize recycle)) = false := by
          simp only [beq_eq_false_iff_ne, ne_eq]
          omega
        rw [hfin] at h
        cases hrec : addLoop fuel recycle
            (left - min left (kBlockSize - bo0 - headerSize recycle))
            (bo0 + headerSize recycle
              + min left (kBlockSize - bo0 - headerSize recycle)) false with
        | none => rw [hrec] at h; simp at h
        | some r =>
            rw [hrec] at h
            obtain ⟨evs', bo2'⟩ := r
            simp only [Option.some.injEq, Prod.mk.injEq] at h
            obtain ⟨he, _⟩ := h
            subst he
            obtain ⟨k, hk⟩ := addLoop_types_cont fuel recycle _ _ _ _ hrec
            right
            refine ⟨k, ?_⟩
            rw [recordsOf_append, hE0, List.nil_append, recordsOf_record]
            simp only [List.map_cons, hk, recTypeFor_first]

/-- A completed `addLoop` run is unchanged by extra fuel. -/
theorem addLoop_mono (fuel : Nat) :
    forall fuel2 recycle left bo bg r,
      addLoop fuel recycle left bo bg = some r -> fuel ≤ fuel2 ->
      addLoop fuel2 recycle left bo bg = some r := by
  induction fuel with
  | zero =>
      intro fuel2 recycle left bo bg r h _
      simp [addLoop] at h
  | succ fuel ih =>
      intro fuel2 recycle left bo bg r h hle
      obtain ⟨fuel2, rfl⟩ : exists f2, fuel2 = f2 + 1 := by
        cases fuel2 with
        | zero => omega
        | succ f => exact ⟨f, rfl⟩
      simp only [addLoop] at h ⊢
      generalize hB : (if kBlockSize - bo < headerSize recycle then 0
        else bo) = bo0 at h ⊢
      generalize hE : (if kBlockSize - bo < headerSize recycle then
          (if 0 < kBlockSize - bo then
            [LogEvent.trailer (List.replicate (kBlockSize - bo) 0)]
          else [])
        else []) = evs0 at h ⊢
      by_cases hterm :
          left - min left (kBlockSize - bo0 - headerSize recycle) = 0
      · rw [if_pos hterm] at h ⊢
        exact h
      · rw [if_neg hterm] at h ⊢
        cases hrec : addLoop fuel recycle
            (left - min left (kBlockSize - bo0 - headerSize recycle))
            (bo0 + headerSize recycle
              + min left (kBlockSize - bo0 - headerSize recycle)) false with
        | none => rw [hrec] at h; simp at h
        | some r' =>
            rw [hrec] at h
            rw [ih fuel2 recycle _ _ _ _ hrec (by omega)]
            exact h

/-- `left + 2` units of fuel always complete the `AddRecord` loop: its body
runs at most `left + 2` times (at most one zero-length fragment can be
emitted, when the block has exactly `header_size` bytes free; every other
iteration consumes at least one payload byte). -/
theorem addLoop_total :
    forall left bo : Nat, forall recycle bg : Bool, bo ≤ kBlockSize ->
      exists r, addLoop (left + 2) recycle left bo bg = some r := by
  intro left
  induction left using Nat.strong_induction_on with
  | _ left ih =>
    intro bo recycle bg hbo
    have hhs0 : 0 < headerSize recycle := by cases recycle <;> decide
    have hhs2 : headerSize recycle + 2 ≤ kBlockSize := by
      cases recycle <;> decide
    rw [show left + 2 = (left + 1) + 1 from rfl]
    generalize hf : left + 1 = f
    simp only [addLoop]
    generalize hB : (if kBlockSize - bo < headerSize recycle then 0
      else bo) = bo0
    have hbo0 : bo0 + headerSize recycle ≤ kBlockSize := by
      rw [← hB]; split <;> omega
    by_cases hterm :
        left - min left (kBlockSize - bo0 - headerSize recycle) = 0
    · rw [if_pos hterm]
      exact ⟨_, rfl⟩
    · rw [if_neg hterm]
      have hbo1 : bo0 + headerSize recycle
          + min left (kBlockSize - bo0 - headerSize recycle) = kBlockSize := by
        omega
      rw [hbo1]
      by_cases hav : 0 < kBlockSize - bo0 - headerSize recycle
      · obtain ⟨r, hr⟩ := ih
          (left - min left (kBlockSize - bo0 - headerSize recycle))
          (by omega) kBlockSize recycle false le_rfl
        rw [addLoop_mono _ _ _ _ _ _ _ hr (by omega)]
        exact ⟨_, rfl⟩
      · have hav0 : kBlockSize - bo0 - headerSize recycle = 0 := by omega
        simp only [hav0, Nat.min_zero, Nat.sub_zero]
        rw [← hf]
        simp only [addLoop, Nat.sub_self]
        rw [if_pos hhs0, if_neg (lt_irrefl 0)]
        by_cases hterm2 :
            left - min left (kBlockSize - 0 - headerSize recycle) = 0
        · rw [if_pos hterm2]
          exact ⟨_, rfl⟩
        · rw [if_neg hterm2]
          have hbo1' : 0 + headerSize recycle
              + min left (kBlockSize - 0 - headerSize recycle)
                = kBlockSize := by omega
          rw [hbo1']
          obtain ⟨r, hr⟩ := ih
            (left - min left (kBlockSize - 0 - headerSize recycle))
            (by omega) kBlockSize recycle false le_rfl
          rw [addLoop_mono _ _ _ _ _ _ _ hr (by omega)]
          exact ⟨_, rfl⟩

/-- Every trailer written by the `AddRecord` loop consists of between 1 and
`header_size - 1` zero bytes, every fragment is emitted with
`block_offset_ + header_size + fragment_length <= kBlockSize`, and the final
`block_offset_` stays within the block. -/
theorem addLoop_bounds (fuel : Nat) :
    forall recycle left bo bg evs bo2,
      bo ≤ kBlockSize ->
      addLoop fuel recycle left bo bg = some (evs, bo2) ->
      (forall bs, bs ∈ trailersOf evs ->
          0 < bs.length ∧ bs.length < headerSize recycle ∧
          bs = List.replicate bs.length 0) ∧
      (forall r, r ∈ recordsOf evs ->
          r.2.1 + headerSize recycle + r.2.2 ≤ kBlockSize) ∧
      bo2 ≤ kBlockSize := by
  induction fuel with
  | zero =>
      intro recycle left bo bg evs bo2 _ h
      simp [addLoop] at h
  | succ fuel ih =>
      intro recycle left bo bg evs bo2 hbo h
      have hhs2 : headerSize recycle + 2 ≤ kBlockSize := by
        cases recycle <;> decide
      simp only [addLoop] at h
      generalize hB : (if kBlockSize - bo < headerSize recycle then 0
        else bo) = bo0 at h
      have hbo0 : bo0 + headerSize recycle ≤ kBlockSize := by
        rw [← hB]; split <;> omega
      have hT0 := trailersOf_switch bo (headerSize recycle)
      have hR0 := recordsOf_switch bo (headerSize recycle)
      generalize hE : (if kBlockSize - bo < headerSize recycle then
          (if 0 < kBlockSize - bo then
            [LogEvent.trailer (List.replicate (kBlockSize - bo) 0)]
          else [])
        else []) = evs0 at h hT0 hR0
      have htr : forall bs, bs ∈ trailersOf evs0 ->
          0 < bs.length ∧ bs.length < headerSize recycle ∧
          bs = List.replicate bs.length 0 := by
        intro bs hbs
        rw [hT0] at hbs
        by_cases hc : kBlockSize - bo < headerSize recycle ∧
            0 < kBlockSize - bo
        · rw [if_pos hc] at hbs
          rw [List.mem_singleton] at hbs
          subst hbs
          refine ⟨?_, ?_, ?_⟩ <;>
            simp [List.length_replicate] <;> omega
        · rw [if_neg hc] at hbs
          simp at hbs
      by_cases hterm :
          left - min left (kBlockSize - bo0 - headerSize recycle) = 0
      · rw [if_pos hterm] at h
        simp only [Option.some.injEq, Prod.mk.injEq] at h
        obtain ⟨he, hb2⟩ := h
        subst he
        refine ⟨?_, ?_, by omega⟩
        · intro bs hbs
          rw [trailersOf_append] at hbs
          rcases List.mem_append.mp hbs with hh | hh
          · exact htr bs hh
          · simp [trailersOf] at hh
        · intro r hr
          rw [recordsOf_append, hR0, List.nil_append, recordsOf_single] at hr
          rw [List.mem_singleton] at hr
          subst hr
          simp only
          omega
      · rw [if_neg hterm] at h
        cases hrec : addLoop fuel recycle
            (left - min left (kBlockSize - bo0 - headerSize recycle))
            (bo0 + headerSize recycle
              + min left (kBlockSize - bo0 - headerSize recycle)) false with
        | none => rw [hrec] at h; simp at h
        | some r' =>
            rw [hrec] at h
            obtain ⟨evs', bo2'⟩ := r'
            simp only [Option.some.injEq, Prod.mk.injEq] at h
            obtain ⟨he, hb2⟩ := h
            subst he
            obtain ⟨ihT, ihR, ihB⟩ := ih recycle _ _ _ _ _ (by omega) hrec
            refine ⟨?_, ?_, by omega⟩
            · intro bs hbs
              rw [trailersOf_append] at hbs
              rcases List.mem_append.mp hbs with hh | hh
              · exact htr bs hh
              · rw [trailersOf_record] at hh
                exact ihT bs hh
            · intro r hr
              rw [recordsOf_append, hR0, List.nil_append,
                recordsOf_record] at hr
              rcases List.mem_cons.mp hr with hh | hh
              · subst hh
                simp only
                omega
              · exact ihR r hh

/-- Claim C2: for every input slice of length `left`, a successful
`AddRecord` emits physical records whose payload lengths sum to `left` and
whose type sequence is exactly one FULL, or FIRST followed by zero or more
MIDDLE followed by LAST (the RECYCLABLE_* variants when recycling is on);
in particular, for the empty slice it emits exactly one zero-length FULL
(or RECYCLABLE_FULL) record. -/
theorem addRecord_fragments (recycle : Bool) (left bo : Nat)
    (hbo : bo ≤ kBlockSize) :
    exists evs bo2, addRecord recycle left bo = some (evs, bo2) ∧
      ((recordsOf evs).map (fun r => r.2.2)).sum = left ∧
      (((recordsOf evs).map (fun r => r.1)
          = [if recycle then RecordType.recyclableFull else .full]) ∨
        (exists k, (recordsOf evs).map (fun r => r.1)
          = (if recycle then RecordType.recyclableFirst else .first)
            :: (List.replicate k
                (if recycle then RecordType.recyclableMiddle else .middle)
              ++ [if recycle then RecordType.recyclableLast else .last]))) ∧
      (left = 0 ->
        exists b, recordsOf evs
          = [((if recycle then RecordType.recyclableFull else .full), b,
              0)]) := by
  obtain ⟨⟨evs, bo2⟩, hr⟩ := addLoop_total left bo recycle true hbo
  refine ⟨evs, bo2, hr, addLoop_sum _ _ _ _ _ _ _ hr,
    addLoop_types _ _ _ _ _ _ hr, ?_⟩
  intro h0
  subst h0
  rw [show (0 : Nat) + 2 = 1 + 1 from rfl] at hr
  simp only [addLoop] at hr
  generalize hB : (if kBlockSize - bo < headerSize recycle then 0
    else bo) = bo0 at hr
  have hR0 := recordsOf_switch bo (headerSize recycle)
  generalize hE : (if kBlockSize - bo < headerSize recycle then
      (if 0 < kBlockSize - bo then
        [LogEvent.trailer (List.replicate (kBlockSize - bo) 0)]
      else [])
    else []) = evs0 at hr hR0
  rw [if_pos (by omega)] at hr
  simp only [Nat.zero_sub, Nat.zero_min, beq_self_eq_true,
    Option.some.injEq, Prod.mk.injEq] at hr
  obtain ⟨he, _⟩ := hr
  subst he
  refine ⟨bo0, ?_⟩
  rw [recordsOf_append, hR0, List.nil_append, recordsOf_single,
    recTypeFor_full]

/-- Witness for C2 at a concrete input: recycling off, a 5-byte record from
`block_offset_ = 0`. -/
theorem addRecord_fragments_witness :
    (0 : Nat) ≤ kBlockSize ∧
    (exists evs bo2, addRecord false 5 0 = some (evs, bo2) ∧
      ((recordsOf evs).map (fun r => r.2.2)).sum = 5 ∧
      (((recordsOf evs).map (fun r => r.1)
          = [if false then RecordType.recyclableFull else .full]) ∨
        (exists k, (recordsOf evs).map (fun r => r.1)
          = (if false then RecordType.recyclableFirst else .first)
            :: (List.replicate k
                (if false then RecordType.recyclableMiddle else .middle)
              ++ [if false then RecordType.recyclableLast else .last]))) ∧
      (5 = 0 ->
        exists b, recordsOf evs
          = [((if false then RecordType.recyclableFull else .full), b,
              0)])) :=
  ⟨by decide, addRecord_fragments false 5 0 (by decide)⟩

/-- Claim C3: over every successful `AddRecord` run, each trailer written to
close a block consists of `leftover` zero bytes with
`0 < leftover < header_size` (no trailer is written when `leftover = 0`),
every fragment is emitted with
`block_offset_ + header_size + fragment_length <= kBlockSize` (so the writer
never leaves fewer than `header_size` bytes unused in the current block at
an emit), and the final `block_offset_` stays within the block. -/
theorem addRecord_trailer_invariant (recycle : Bool) (left bo : Nat)
    (evs : List LogEvent) (bo2 : Nat) (hbo : bo ≤ kBlockSize)
    (h : addRecord recycle left bo = some (evs, bo2)) :
    (forall bs, bs ∈ trailersOf evs ->
        0 < bs.length ∧ bs.length < headerSize recycle ∧
        bs = List.replicate bs.length 0) ∧
    (forall r, r ∈ recordsOf evs ->
        r.2.1 + headerSize recycle + r.2.2 ≤ kBlockSize) ∧
    bo2 ≤ kBlockSize :=
  addLoop_bounds _ recycle left bo true evs bo2 hbo h

/-- Witness for C3 at a concrete input: recycling off, a 1-byte record from
`block_offset_ = 32767`, which forces a 1-byte zero trailer. -/
theorem addRecord_trailer_invariant_witness :
    ((32767 : Nat) ≤ kBlockSize ∧
      addRecord false 1 32767
        = some ([.trailer [0], .record .full 0 1], 8)) ∧
    ((forall bs, bs ∈ trailersOf [LogEvent.trailer [0],
          LogEvent.record .full 0 1] ->
        0 < bs.length ∧ bs.length < headerSize false ∧
        bs = List.replicate bs.length 0) ∧
      (forall r, r ∈ recordsOf [LogEvent.trailer [0],
          LogEvent.record .full 0 1] ->
        r.2.1 + headerSize false + r.2.2 ≤ kBlockSize) ∧
      (8 : Nat) ≤ kBlockSize) :=
  ⟨⟨by decide, by decide⟩,
    addRecord_trailer_invariant false 1 32767 _ _ (by decide) (by decide)⟩

/-- Claim C8: with recycling off and `block_offset_ = 0`, adding a
40000-byte record emits exactly two fragments: a FIRST fragment of payload
length 32761 that fills the block (so the next iteration sees `leftover = 0`
and writes no trailer bytes before starting the new block), then a LAST
fragment of payload length 7239, leaving `block_offset_ = 7246`. -/
theorem addRecord_40000 :
    addRecord false 40000 0
      = some ([.record .first 0 32761, .record .last 0 7239], 7246) := by
  decide

/-! ## File writer (`file/writable_file_writer.cc`) -/

/-- Configuration of a `WritableFileWriter`, fixed at construction:
`use_direct_io()`, `bytes_per_sync_`, `max_buffer_size_`,
`perform_data_verification_` and `buffered_data_with_checksum_`.  The rate
limiter is modelled as absent (`rate_limiter_ == nullptr`), except in
`WriteDirect` where grants are supplied explicitly. -/
structure WCfg where
  direct : Bool
  bps : Nat
  maxBuf : Nat
  pdv : Bool
  bdwc : Bool
  deriving DecidableEq, Repr

/-- The aligned buffer owned by the file writer (`util/aligned_buffer.h`):
`data` is the live content `buffer[0 .. current_size)`, `cap` the capacity
and `align` the alignment.  Stale memory beyond `current_size` (read by the
source only in `Pad` after an intermediate flush, a path excluded from the
theorems below) is modelled as zeros. -/
structure ABuf where
  data : List Nat
  cap : Nat
  align : Nat
  deriving DecidableEq, Repr

/-- The mutable state of a `WritableFileWriter`: the buffer, the running
`buffered_data_crc32c_checksum_`, `filesize_`, `pending_sync_`,
`last_sync_size_` and `next_write_offset_`. -/
structure WFW where
  buf : ABuf
  crc : Nat
  filesize : Nat
  pendingSync : Bool
  lastSyncSize : Nat
  nwo : Nat
  deriving DecidableEq, Repr

/-- Every sink call consumes one outcome from the oracle list (`true` = OK);
an exhausted oracle means the sink keeps succeeding. -/
def nextOk (o : List Bool) : Bool × List Bool := (o.headD true, o.tail)

/-- `TruncateToPageBoundary(alignment, s) = s - s % alignment`. -/
def truncateToPage (align s : Nat) : Nat := s - s % align

/-- `Roundup(x, y) = ((x + y - 1) / y) * y`, as used by
`AlignedBuffer::PadToAlignmentWith`. -/
def roundUp (x y : Nat) : Nat := (x + y - 1) / y * y

/-- `WritableFileWriter::WriteBuffered(src, size)` with no rate limiter: a
single sink append of all of `src` (none when `size = 0`); on success
`buf_.Size(0)` and the running checksum are reset, on failure the function
returns without resetting them. -/
def writeBuffered (st : WFW) (src : List Nat) (o : List Bool) :
    Bool × WFW × List Bool :=
  if src.length = 0 then
    (true, { st with buf := { st.buf with data := [] }, crc := 0 }, o)
  else
    let r := nextOk o
    if r.1 then
      (true, { st with buf := { st.buf with data := [] }, crc := 0 }, r.2)
    else (false, st, r.2)

/-- `WritableFileWriter::WriteBufferedWithChecksum(src, size)`: the rate
limiter is drained up front, then one sink append of all of `src` is issued
carrying `buffered_data_crc32c_checksum_` (little-endian) as the
verification checksum; on success `buf_.Size(0)` and the running checksum
are reset, on failure the function returns without touching them. -/
def writeBufferedWithChecksum (st : WFW) (src : List Nat) (o : List Bool) :
    Bool × WFW × List Bool :=
  let r := nextOk o
  if r.1 then
    (true, { st with buf := { st.buf with data := [] }, crc := 0 }, r.2)
  else (false, st, r.2)

/-- The positioned-append loop of `WritableFileWriter::WriteDirect`: each
iteration takes a rate-limiter grant from `grants` (`0`, an exhausted list,
or a grant exceeding what is left all mean "write the rest") and one
positioned-append outcome from the oracle.  Returns whether the loop
completed without a sink error. -/
def writeDirectLoop : Nat -> Nat -> List Nat -> List Bool ->
    Option (Bool × List Bool)
  | 0, _, _, _ => none
  | fuel + 1, left, grants, o =>
    if left = 0 then some (true, o)
    else
      let g := grants.headD 0
      let sz := if g = 0 ∨ left < g then left else g
      let r := nextOk o
      if r.1 then writeDirectLoop fuel (left - sz) grants.tail r.2
      else some (false, r.2)

/-- `WritableFileWriter::WriteDirect`: compute
`file_advance = TruncateToPageBoundary(alignment, current_size)` and
`leftover_tail = current_size - file_advance`, pad the buffer with zeros to
the next multiple of the alignment, then issue rate-limited positioned
appends covering the whole padded buffer.  On any failure restore
`buf_.Size(file_advance + leftover_tail)` and leave `next_write_offset_`
unchanged; on success `RefitTail(file_advance, leftover_tail)` and advance
`next_write_offset_` by exactly `file_advance`. -/
def writeDirect (st : WFW) (grants : List Nat) (o : List Bool)
    (fuel : Nat) : Option (Bool × WFW × List Bool) :=
  let sz := st.buf.data.length
  let fa := truncateToPage st.buf.align sz
  let lo := sz - fa
  let padded := st.buf.data ++ List.replicate (roundUp sz st.buf.align - sz) 0
  match writeDirectLoop fuel padded.length grants o with
  | none => none
  | some (ok, o1) =>
    if ok then
      some (true,
        { st with
            buf := { st.buf with data := (padded.drop fa).take lo },
            nwo := st.nwo + fa }, o1)
    else
      some (false,
        { st with buf := { st.buf with data := padded.take (fa + lo) } }, o1)

/-- `WritableFileWriter::WriteDirectWithChecksum`: pad to the alignment,
fold the CRC of the padding region into the running checksum (the folded
value is only handed to the sink), drain the rate limiter, then one
positioned append of the whole padded buffer.  On failure restore
`buf_.Size(file_advance + leftover_tail)` and recompute the running
checksum from the buffer contents; on success refit the tail, recompute the
running checksum over the new leftover-tail contents, and advance
`next_write_offset_` by `file_advance`. -/
def writeDirectWithChecksum (st : WFW) (o : List Bool) :
    Bool × WFW × List Bool :=
  let sz := st.buf.data.length
  let fa := truncateToPage st.buf.align sz
  let lo := sz - fa
  let pad := List.replicate (roundUp sz st.buf.align - sz) 0
  let padded := st.buf.data ++ pad
  let _handoff := crcCombine st.crc (crcValue pad) pad.length
  let r := nextOk o
  if r.1 then
    (true,
      { st with
          buf := { st.buf with data := (padded.drop fa).take lo },
          crc := crcValue ((padded.drop fa).take lo),
          nwo := st.nwo + fa }, r.2)
  else
    (false,
      { st with
          buf := { st.buf with data := padded.take (fa + lo) },
          crc := crcValue (padded.take (fa + lo)) }, r.2)

/-- `offset_sync_to` as computed by `WritableFileWriter::Flush`:
`filesize_ - kBytesNotSyncRange` (1 MiB reserve) rounded down to
`kBytesAlignWhenSync` (4 KiB). -/
def offsetSyncTo (filesize : Nat) : Nat :=
  (filesize - 1048576) - (filesize - 1048576) % 4096

/-- The range-sync step at the end of `WritableFileWriter::Flush`: in
buffered mode with `bytes_per_sync_` set and `filesize_ > 1 MiB`, compute
`offset_sync_to`; if `offset_sync_to > 0` and
`offset_sync_to - last_sync_size_ >= bytes_per_sync_`, issue
`RangeSync(last_sync_size_, offset_sync_to - last_sync_size_)` (one oracle
entry) and set `last_sync_size_ = offset_sync_to` regardless of that call's
outcome, which becomes the returned status.  Returns the status, the new
`last_sync_size_`, the issued `(offset, nbytes)` range if any, and the
remaining oracle.  (Under the source's `assert(offset_sync_to >=
last_sync_size_)` the truncated subtraction agrees with the uint64 one.) -/
def rangeSyncStep (direct : Bool) (bps filesize lastSync : Nat)
    (o : List Bool) : Bool × Nat × Option (Nat × Nat) × List Bool :=
  if direct = false ∧ bps ≠ 0 then
    if 1048576 < filesize then
      if 0 < offsetSyncTo filesize ∧
          bps ≤ offsetSyncTo filesize - lastSync then
        let r := nextOk o
        (r.1, offsetSyncTo filesize,
          some (lastSync, offsetSyncTo filesize - lastSync), r.2)
      else (true, lastSync, none, o)
    else (true, lastSync, none, o)
  else (true, lastSync, none, o)

/-- The tail of `WritableFileWriter::Flush` after the buffer drain (whose
result is `(ok1, st1, o1)`): on drain failure return the error; otherwise
the sink `Flush` (one oracle entry), then the buffered-mode range-sync
step whose status becomes the returned status. -/
def flushTail (cfg : WCfg) (ok1 : Bool) (st1 : WFW) (o1 : List Bool) :
    Bool × WFW × List Bool :=
  if ok1 then
    let rf := nextOk o1
    if rf.1 then
      let rs := rangeSyncStep cfg.direct cfg.bps st1.filesize
        st1.lastSyncSize rf.2
      (rs.1, { st1 with lastSyncSize := rs.2.1 }, rs.2.2.2)
    else (false, st1, rf.2)
  else (false, st1, o1)

/-- `WritableFileWriter::Flush`: drain the buffer (in direct mode only when
`pending_sync_`, via `WriteDirect[WithChecksum]`; in buffered mode via
`WriteBuffered[WithChecksum]` over `buf_[0 .. current_size)`), then the
sink `Flush` and the buffered-mode range-sync step (`flushTail`). -/
def flushStep (cfg : WCfg) (st : WFW) (grants : List Nat) (o : List Bool)
    (fuel : Nat) : Option (Bool × WFW × List Bool) :=
  let drain : Option (Bool × WFW × List Bool) :=
    if 0 < st.buf.data.length then
      if cfg.direct then
        if st.pendingSync then
          if cfg.pdv ∧ cfg.bdwc then some (writeDirectWithChecksum st o)
          else writeDirect st grants o fuel
        else some (true, st, o)
      else
        if cfg.pdv ∧ cfg.bdwc then
          some (writeBufferedWithChecksum st st.buf.data o)
        else some (writeBuffered st st.buf.data o)
    else some (true, st, o)
  match drain with
  | none => none
  | some r => some (flushTail cfg r.1 r.2.1 r.2.2)

/-- The capacity-growth loop of `WritableFileWriter::Append`: starting from
the current capacity, double while below `max_buffer_size_`; allocate
`desired = min(cap * 2, max_buffer_size_)` as soon as the incoming bytes
would fit after `current_size` (or, in direct-I/O mode, once `desired`
reaches `max_buffer_size_`).  `none` means the loop exits without
allocating, leaving the capacity unchanged (the fuel only runs out when the
capacity is zero, where the source's loop would not terminate either). -/
def growCapacityLoop : Nat -> Nat -> Nat -> Nat -> Nat -> Bool -> Option Nat
  | 0, _, _, _, _, _ => none
  | fuel + 1, capd, curSize, left, maxB, direct =>
    if capd < maxB then
      let desired := min (capd * 2) maxB
      if left ≤ desired - curSize ∨ (direct = true ∧ desired = maxB) then
        some desired
      else growCapacityLoop fuel (capd * 2) curSize left maxB direct
    else none

/-- The copy-and-flush loop shared by the two in-buffer copy paths of
`WritableFileWriter::Append` (the handoff path that no longer fits at once,
and the plain path): copy `min(left, capacity - current_size)` bytes into
the buffer, extend the running checksum over the copied chunk when
`perform_data_verification_ && buffered_data_with_checksum_`, and flush
between iterations while bytes remain (returning on a flush error). -/
def appendChunkLoop (cfg : WCfg) : Nat -> WFW -> List Nat -> List Nat ->
    List Bool -> Option (Bool × WFW × List Bool)
  | 0, _, _, _, _ => none
  | fuel + 1, st, src, grants, o =>
    if src.length = 0 then some (true, st, o)
    else
      let k := min src.length (st.buf.cap - st.buf.data.length)
      let chunk := src.take k
      let st1 := { st with
        buf := { st.buf with data := st.buf.data ++ chunk },
        crc := if cfg.pdv ∧ cfg.bdwc then crcExtend st.crc chunk
          else st.crc }
      if src.length - k = 0 then some (true, st1, o)
      else
        match flushStep cfg st1 grants o fuel with
        | none => none
        | some (ok, st2, o1) =>
          if ok then appendChunkLoop cfg fuel st2 (src.drop k) grants o1
          else some (false, st2, o1)

/-- The capacity after the growth step of `Append` (unchanged when the
data already fits or the loop exits without allocating). -/
def grownCap (cfg : WCfg) (cap curSize left : Nat) : Nat :=
  if cap - curSize < left then
    match growCapacityLoop (cfg.maxBuf + 1) cap curSize left cfg.maxBuf
        cfg.direct with
    | some c => c
    | none => cap
  else cap

/-- `WritableFileWriter::Append(data, crc32c_checksum)`: set
`pending_sync_`, grow the buffer if needed, flush in buffered mode when the
data still does not fit and the buffer is non-empty, then dispatch: with
verification on and a caller checksum, either copy all bytes into the
buffer and fold the handoff via `Crc32cCombine` (when they fit, or in
direct mode through the chunk loop), or bypass the buffer via
`WriteBufferedWithChecksum` after seeding the running checksum with the
handoff; otherwise copy through the chunk loop, or bypass via
`WriteBuffered[WithChecksum]` computing the checksum locally.  On success
`filesize_ += data.size()`. -/
def appendStep (cfg : WCfg) (st0 : WFW) (data : List Nat) (handoff : Nat)
    (grants : List Nat) (o : List Bool) (fuel : Nat) :
    Option (Bool × WFW × List Bool) :=
  let left := data.length
  let stA := { st0 with pendingSync := true }
  let newCap := grownCap cfg stA.buf.cap stA.buf.data.length left
  let stB := { stA with buf := { stA.buf with cap := newCap } }
  let preFlush : Option (Bool × WFW × List Bool) :=
    if cfg.direct = false ∧ stB.buf.cap - stB.buf.data.length < left ∧
        0 < stB.buf.data.length then
      flushStep cfg stB grants o fuel
    else some (true, stB, o)
  match preFlush with
  | none => none
  | some (fok, st, o1) =>
    if fok = false then some (false, st, o1)
    else
      let core : Option (Bool × WFW × List Bool) :=
        if cfg.pdv ∧ cfg.bdwc ∧ handoff ≠ 0 then
          if cfg.direct = true ∨ left ≤ st.buf.cap - st.buf.data.length then
            if left ≤ st.buf.cap - st.buf.data.length then
              let k := min left (st.buf.cap - st.buf.data.length)
              some (k == left,
                { st with
                    buf := { st.buf with data := st.buf.data ++ data.take k },
                    crc := crcCombine st.crc handoff k }, o1)
            else appendChunkLoop cfg fuel st data grants o1
          else
            some (writeBufferedWithChecksum { st with crc := handoff } data
              o1)
        else
          if cfg.direct = true ∨ left ≤ st.buf.cap then
            appendChunkLoop cfg fuel st data grants o1
          else
            if cfg.pdv ∧ cfg.bdwc then
              some (writeBufferedWithChecksum
                { st with crc := crcValue data } data o1)
            else some (writeBuffered st data o1)
      match core with
      | none => none
      | some (ok, st2, o2) =>
        some (ok,
          if ok then { st2 with filesize := st2.filesize + left } else st2,
          o2)

/-- The fill loop of `WritableFileWriter::Pad`: pad
`min(capacity - current_size, left)` zero bytes into the buffer each
iteration, flushing between iterations while bytes remain (returning the
flush error on failure). -/
def padLoop (cfg : WCfg) : Nat -> WFW -> Nat -> List Nat -> List Bool ->
    Option (Bool × WFW × List Bool)
  | 0, _, _, _, _ => none
  | fuel + 1, st, left, grants, o =>
    if left = 0 then some (true, st, o)
    else
      let appendBytes := min (st.buf.cap - st.buf.data.length) left
      let st1 := { st with buf := { st.buf with
        data := st.buf.data ++ List.replicate appendBytes 0 } }
      if left - appendBytes = 0 then some (true, st1, o)
      else
        match flushStep cfg st1 grants o fuel with
        | none => none
        | some (ok, st2, o1) =>
          if ok then padLoop cfg fuel st2 (left - appendBytes) grants o1
          else some (false, st2, o1)

/-- `WritableFileWriter::Pad(pad_bytes)`: run the fill loop, then set
`pending_sync_`, advance `filesize_`, and — when
`perform_data_verification_` — extend the running checksum over the buffer
region `[pad_start, pad_start + pad_bytes)` where `pad_start` is the buffer
size on entry.  When an intermediate flush happened that region does not
correspond to the zeros just appended (the source then reads stale buffer
memory, modelled as zeros via `getD`); the checksum-invariant theorem
therefore assumes the pad fits in the free buffer space. -/
def padStep (cfg : WCfg) (st0 : WFW) (padBytes : Nat) (grants : List Nat)
    (o : List Bool) (fuel : Nat) : Option (Bool × WFW × List Bool) :=
  let padStart := st0.buf.data.length
  match padLoop cfg fuel st0 padBytes grants o with
  | none => none
  | some (ok, st1, o1) =>
    if ok then
      some (true,
        { st1 with
            pendingSync := true,
            filesize := st1.filesize + padBytes,
            crc := if cfg.pdv then
                crcExtend st1.crc ((List.range padBytes).map
                  (fun i => st1.buf.data.getD (padStart + i) 0))
              else st1.crc }, o1)
    else some (false, st1, o1)

theorem truncateToPage_mul (a s : Nat) : truncateToPage a s = s / a * a := by
  have h : a * (s / a) + s % a = s := Nat.div_add_mod s a
  have h2 : a * (s / a) = s / a * a := Nat.mul_comm _ _
  unfold truncateToPage
  omega

theorem truncateToPage_mod (a s : Nat) : truncateToPage a s % a = 0 := by
  rw [truncateToPage_mul]
  simp [Nat.mul_mod_left]

theorem truncateToPage_le (a s : Nat) : truncateToPage a s ≤ s :=
  Nat.sub_le _ _

/-- Counterexample to claim C5 as stated: at the later flush
(`filesize = 3 MiB + 40 KiB`, `last_sync_size_ = 2 MiB`) the code computes
`offset_sync_to = 2 MiB + 40 KiB` (40960 is already 4 KiB-aligned), not
`2 MiB + 36 KiB`; the gap to `last_sync_size_` is 40 KiB, not 36 KiB.  No
range sync is issued, but because `40 KiB < 64 KiB`. -/
theorem rangeSync_second_flush_counterexample :
    offsetSyncTo (3 * 1048576 + 40 * 1024) = 2 * 1048576 + 40 * 1024 ∧
    ¬ offsetSyncTo (3 * 1048576 + 40 * 1024) = 2 * 1048576 + 36 * 1024 ∧
    offsetSyncTo (3 * 1048576 + 40 * 1024) - 2 * 1048576 = 40 * 1024 ∧
    rangeSyncStep false 65536 (3 * 1048576 + 40 * 1024) (2 * 1048576)
        [true]
      = (true, 2 * 1048576, none, [true]) := by
  decide

/-- Claim C5 (amended): for every flush in buffered mode with
`bytes_per_sync_ > 0` and `filesize_ > 1 MiB`,
`offset_sync_to = round_down(filesize - 1 MiB, 4 KiB)`, and
`RangeSync(last_sync_size_, offset_sync_to - last_sync_size_)` is issued iff
`offset_sync_to > 0` and
`offset_sync_to - last_sync_size_ >= bytes_per_sync_`, after which
`last_sync_size_ = offset_sync_to`.  With `bytes_per_sync_ = 64 KiB`, the
first flush at 3 MiB issues `RangeSync(0, 2 MiB)`; a later flush at
`filesize = 3 MiB + 40 KiB` computes `offset_sync_to = 2 MiB + 40 KiB` and
issues none because `40 KiB < 64 KiB`. -/
theorem flush_rangeSync_spec (filesize lastSync bps : Nat) (o : List Bool)
    (h1 : 1048576 < filesize) (h2 : bps ≠ 0) :
    (offsetSyncTo filesize = (filesize - 1048576) / 4096 * 4096) ∧
    (0 < offsetSyncTo filesize ∧
        bps ≤ offsetSyncTo filesize - lastSync ->
      rangeSyncStep false bps filesize lastSync o
        = (o.headD true, offsetSyncTo filesize,
            some (lastSync, offsetSyncTo filesize - lastSync), o.tail)) ∧
    (¬ (0 < offsetSyncTo filesize ∧
        bps ≤ offsetSyncTo filesize - lastSync) ->
      rangeSyncStep false bps filesize lastSync o
        = (true, lastSync, none, o)) ∧
    rangeSyncStep false 65536 (3 * 1048576) 0 [true]
      = (true, 2 * 1048576, some (0, 2 * 1048576), []) ∧
    rangeSyncStep false 65536 (3 * 1048576 + 40 * 1024) (2 * 1048576)
        [true]
      = (true, 2 * 1048576, none, [true]) := by
  refine ⟨?_, ?_, ?_, by decide, by decide⟩
  · have h := Nat.div_add_mod (filesize - 1048576) 4096
    unfold offsetSyncTo
    omega
  · intro hc
    unfold rangeSyncStep
    rw [if_pos ⟨rfl, h2⟩, if_pos h1, if_pos hc]
    rfl
  · intro hc
    unfold rangeSyncStep
    rw [if_pos ⟨rfl, h2⟩, if_pos h1, if_neg hc]

/-- Witness for C5 (amended) at the first concrete scenario:
`filesize = 3 MiB`, `last_sync_size_ = 0`, `bytes_per_sync_ = 64 KiB`. -/
theorem flush_rangeSync_spec_witness :
    (1048576 < 3 * 1048576 ∧ (65536 : Nat) ≠ 0) ∧
    ((offsetSyncTo (3 * 1048576)
        = (3 * 1048576 - 1048576) / 4096 * 4096) ∧
      (0 < offsetSyncTo (3 * 1048576) ∧
          65536 ≤ offsetSyncTo (3 * 1048576) - 0 ->
        rangeSyncStep false 65536 (3 * 1048576) 0 [true]
          = ([true].headD true, offsetSyncTo (3 * 1048576),
              some (0, offsetSyncTo (3 * 1048576) - 0), [true].tail)) ∧
      (¬ (0 < offsetSyncTo (3 * 1048576) ∧
          65536 ≤ offsetSyncTo (3 * 1048576) - 0) ->
        rangeSyncStep false 65536 (3 * 1048576) 0 [true]
          = (true, 0, none, [true])) ∧
      rangeSyncStep false 65536 (3 * 1048576) 0 [true]
        = (true, 2 * 1048576, some (0, 2 * 1048576), []) ∧
      rangeSyncStep false 65536 (3 * 1048576 + 40 * 1024) (2 * 1048576)
          [true]
        = (true, 2 * 1048576, none, [true])) :=
  ⟨⟨by decide, by decide⟩,
    flush_rangeSync_spec (3 * 1048576) 0 65536 [true] (by decide)
      (by decide)⟩

/-- Claim C10: whenever the range-sync trigger condition holds,
`last_sync_size_` is set to `offset_sync_to` even when the sink's
`RangeSync` returns an error; the error becomes the status `Flush` returns,
and the skipped range is never re-covered: any range a later flush issues
starts at the advanced `last_sync_size_`. -/
theorem rangeSync_error_still_advances (filesize lastSync bps : Nat)
    (h1 : 1048576 < filesize) (h2 : bps ≠ 0)
    (h3 : 0 < offsetSyncTo filesize)
    (h4 : bps ≤ offsetSyncTo filesize - lastSync) :
    rangeSyncStep false bps filesize lastSync [false]
      = (false, offsetSyncTo filesize,
          some (lastSync, offsetSyncTo filesize - lastSync), []) ∧
    (forall cfg st grants fuel,
      cfg.direct = false -> cfg.bps = bps -> st.buf.data = [] ->
      st.filesize = filesize -> st.lastSyncSize = lastSync ->
      flushStep cfg st grants [true, false] fuel
        = some (false,
            { st with lastSyncSize := offsetSyncTo filesize }, [])) ∧
    (forall filesize2 bps2 o2 off len,
      (rangeSyncStep false bps2 filesize2 (offsetSyncTo filesize)
          o2).2.2.1 = some (off, len) ->
      off = offsetSyncTo filesize) := by
  have hstep : rangeSyncStep false bps filesize lastSync [false]
      = (false, offsetSyncTo filesize,
          some (lastSync, offsetSyncTo filesize - lastSync), []) := by
    unfold rangeSyncStep
    rw [if_pos ⟨rfl, h2⟩, if_pos h1, if_pos ⟨h3, h4⟩]
    rfl
  refine ⟨hstep, ?_, ?_⟩
  · intro cfg st grants fuel hd hb hdata hfs hls
    simp only [flushStep, flushTail, hdata, nextOk, List.length_nil,
      List.headD, List.tail, Nat.lt_irrefl, if_false, if_true]
    rw [hd, hb, hfs, hls, hstep]
  · intro filesize2 bps2 o2 off len h
    unfold rangeSyncStep at h
    split at h
    · split at h
      · split at h
        · simp only [Option.some.injEq, Prod.mk.injEq] at h
          exact h.1.symm
        · simp at h
      · simp at h
    · simp at h

/-- Witness for C10 at a concrete trigger: `filesize = 3 MiB`,
`last_sync_size_ = 0`, `bytes_per_sync_ = 64 KiB`, failing range sync. -/
theorem rangeSync_error_still_advances_witness :
    (1048576 < 3 * 1048576 ∧ (65536 : Nat) ≠ 0 ∧
      0 < offsetSyncTo (3 * 1048576) ∧
      65536 ≤ offsetSyncTo (3 * 1048576) - 0) ∧
    (rangeSyncStep false 65536 (3 * 1048576) 0 [false]
      = (false, offsetSyncTo (3 * 1048576),
          some (0, offsetSyncTo (3 * 1048576) - 0), []) ∧
    (forall cfg st grants fuel,
      cfg.direct = false -> cfg.bps = 65536 -> st.buf.data = [] ->
      st.filesize = 3 * 1048576 -> st.lastSyncSize = 0 ->
      flushStep cfg st grants [true, false] fuel
        = some (false,
            { st with lastSyncSize := offsetSyncTo (3 * 1048576) }, [])) ∧
    (forall filesize2 bps2 o2 off len,
      (rangeSyncStep false bps2 filesize2 (offsetSyncTo (3 * 1048576))
          o2).2.2.1 = some (off, len) ->
      off = offsetSyncTo (3 * 1048576))) :=
  ⟨⟨by decide, by decide, by decide, by decide⟩,
    rangeSync_error_still_advances (3 * 1048576) 0 65536 (by decide)
      (by decide) (by decide) (by decide)⟩

/-- Claim C6: for every `WriteDirect` call: if any positioned append fails,
the buffer size is restored to `file_advance + leftover_tail` (the
alignment zero-padding is discarded, so the contents are the original
bytes) and `next_write_offset_` is unchanged; on success the buffer tail
`[file_advance, file_advance + leftover_tail)` is refit to offset 0 and
`next_write_offset_` is advanced by exactly `file_advance`; in both cases
`next_write_offset_ % alignment = 0` is preserved, and no other operation
touches `next_write_offset_`, so it holds in every state reachable between
operations in direct-I/O mode. -/
theorem writeDirect_spec (st : WFW) (grants : List Nat) (o : List Bool)
    (fuel : Nat) (ok : Bool) (st2 : WFW) (o2 : List Bool)
    (h : writeDirect st grants o fuel = some (ok, st2, o2)) :
    (ok = false ->
      st2.buf.data = st.buf.data ∧
      st2.buf.data.length
        = truncateToPage st.buf.align st.buf.data.length
          + (st.buf.data.length
            - truncateToPage st.buf.align st.buf.data.length) ∧
      st2.nwo = st.nwo) ∧
    (ok = true ->
      st2.buf.data = st.buf.data.drop
          (truncateToPage st.buf.align st.buf.data.length) ∧
      st2.nwo = st.nwo
        + truncateToPage st.buf.align st.buf.data.length) ∧
    (st.nwo % st.buf.align = 0 -> st2.nwo % st.buf.align = 0) := by
  have hfa := truncateToPage_le st.buf.align st.buf.data.length
  have htake : (st.buf.data ++ List.replicate
      (roundUp st.buf.data.length st.buf.align - st.buf.data.length)
        0).take (truncateToPage st.buf.align st.buf.data.length
          + (st.buf.data.length
            - truncateToPage st.buf.align st.buf.data.length))
      = st.buf.data := by
    rw [show truncateToPage st.buf.align st.buf.data.length
        + (st.buf.data.length
          - truncateToPage st.buf.align st.buf.data.length)
      = st.buf.data.length from by omega]
    exact List.take_left _ _
  have hdrop : ((st.buf.data ++ List.replicate
      (roundUp st.buf.data.length st.buf.align - st.buf.data.length)
        0).drop (truncateToPage st.buf.align st.buf.data.length)).take
        (st.buf.data.length
          - truncateToPage st.buf.align st.buf.data.length)
      = st.buf.data.drop
          (truncateToPage st.buf.align st.buf.data.length) := by
    rw [List.drop_append_of_le_length hfa]
    refine List.take_left' ?_
    rw [List.length_drop]
  simp only [writeDirect] at h
  split at h
  · exact absurd h (by simp)
  · split at h
    · simp only [Option.some.injEq, Prod.mk.injEq] at h
      obtain ⟨hok2, hst2, _⟩ := h
      subst hok2
      subst hst2
      refine ⟨by intro hcon; exact absurd hcon (by decide), ?_, ?_⟩
      · intro _
        exact ⟨hdrop, rfl⟩
      · intro hal
        simp only
        rw [Nat.add_mod, hal, truncateToPage_mod]
        simp
    · simp only [Option.some.injEq, Prod.mk.injEq] at h
      obtain ⟨hok2, hst2, _⟩ := h
      subst hok2
      subst hst2
      refine ⟨?_, by intro hcon; exact absurd hcon (by decide), ?_⟩
      · intro _
        refine ⟨htake, ?_, rfl⟩
        rw [htake]
        show st.buf.data.length = _
        omega
      · intro hal
        exact hal

/-- Witness for C6 at a small concrete direct-I/O state: alignment 4,
buffer holding 5 bytes (`file_advance = 4`, `leftover_tail = 1`), one
failing positioned append. -/
theorem writeDirect_spec_witness :
    (writeDirect ⟨⟨[7, 7, 7, 7, 7], 8, 4⟩, 0, 5, true, 0, 0⟩ [] [false] 3
      = some (false, ⟨⟨[7, 7, 7, 7, 7], 8, 4⟩, 0, 5, true, 0, 0⟩, [])) ∧
    ((false = false ->
      ([7, 7, 7, 7, 7] : List Nat) = [7, 7, 7, 7, 7] ∧
      ([7, 7, 7, 7, 7] : List Nat).length
        = truncateToPage 4 ([7, 7, 7, 7, 7] : List Nat).length
          + (([7, 7, 7, 7, 7] : List Nat).length
            - truncateToPage 4 ([7, 7, 7, 7, 7] : List Nat).length) ∧
      (0 : Nat) = 0) ∧
    (false = true ->
      ([7, 7, 7, 7, 7] : List Nat) = ([7, 7, 7, 7, 7] : List Nat).drop
          (truncateToPage 4 ([7, 7, 7, 7, 7] : List Nat).length) ∧
      (0 : Nat) = 0
        + truncateToPage 4 ([7, 7, 7, 7, 7] : List Nat).length) ∧
    ((0 : Nat) % 4 = 0 -> (0 : Nat) % 4 = 0)) :=
  ⟨by decide,
    writeDirect_spec ⟨⟨[7, 7, 7, 7, 7], 8, 4⟩, 0, 5, true, 0, 0⟩ []
      [false] 3 false ⟨⟨[7, 7, 7, 7, 7], 8, 4⟩, 0, 5, true, 0, 0⟩ []
      (by decide)⟩

/-- The buffered-data checksum invariant of claim C4: the running
`buffered_data_crc32c_checksum_` equals the CRC32C of exactly the bytes
currently held in the buffer (`buffer[0 .. current_size)`). -/
def CrcInv (st : WFW) : Prop := st.crc = crcValue st.buf.data

instance (st : WFW) : Decidable (CrcInv st) :=
  decidable_of_iff (st.crc = crcValue st.buf.data) Iff.rfl

theorem wbwc_inv (st : WFW) (src : List Nat) (o : List Bool)
    (h : CrcInv st) : CrcInv (writeBufferedWithChecksum st src o).2.1 := by
  simp only [writeBufferedWithChecksum]
  split
  · exact rfl
  · exact h

theorem wdwc_inv (st : WFW) (o : List Bool) :
    CrcInv (writeDirectWithChecksum st o).2.1 := by
  simp only [writeDirectWithChecksum]
  split
  · exact rfl
  · exact rfl

theorem flushTail_fields (cfg : WCfg) (ok1 : Bool) (st1 : WFW)
    (o1 : List Bool) :
    (flushTail cfg ok1 st1 o1).2.1.buf = st1.buf ∧
    (flushTail cfg ok1 st1 o1).2.1.crc = st1.crc ∧
    ((flushTail cfg ok1 st1 o1).1 = true -> ok1 = true) := by
  simp only [flushTail, nextOk]
  split
  next hok1 =>
    split
    · exact ⟨rfl, rfl, fun _ => hok1⟩
    · exact ⟨rfl, rfl, fun hc => Bool.noConfusion hc⟩
  next hok1 =>
    exact ⟨rfl, rfl, fun hc => Bool.noConfusion hc⟩

theorem wbwc_empties (st : WFW) (src : List Nat) (o : List Bool)
    (h : (writeBufferedWithChecksum st src o).1 = true) :
    (writeBufferedWithChecksum st src o).2.1.buf.data = [] := by
  simp only [writeBufferedWithChecksum, nextOk] at h ⊢
  split at h
  next hcond =>
    rw [if_pos hcond]
  next hcond =>
    exact Bool.noConfusion h

/-- `Flush` preserves the checksum invariant on every path, success or
error, when the verification features are on: the buffered drain either
resets both the buffer and the running checksum or leaves both untouched,
the direct drain recomputes the checksum from the buffer contents on both
outcomes, and the sink flush and range-sync steps touch neither. -/
theorem flushStep_inv (cfg : WCfg) (hpdv : cfg.pdv = true)
    (hbdwc : cfg.bdwc = true) :
    forall st grants o fuel ok st2 o2,
      flushStep cfg st grants o fuel = some (ok, st2, o2) ->
      CrcInv st -> CrcInv st2 := by
  intro st grants o fuel ok st2 o2 h hinv
  simp only [flushStep, hpdv, hbdwc, and_self, if_true] at h
  split at h
  · exact absurd h (by simp)
  · rename_i r heq
    have h1 : CrcInv r.2.1 := by
      split at heq
      · split at heq
        · split at heq
          · have hw := wdwc_inv st o
            injection heq with heq2
            rw [heq2] at hw
            exact hw
          · injection heq with heq2
            rw [← heq2]
            exact hinv
        · have hw := wbwc_inv st st.buf.data o hinv
          injection heq with heq2
          rw [heq2] at hw
          exact hw
      · injection heq with heq2
        rw [← heq2]
        exact hinv
    simp only [Option.some.injEq] at h
    have hst2 : (flushTail cfg r.1 r.2.1 r.2.2).2.1 = st2 := by rw [h]
    rw [← hst2]
    obtain ⟨hbuf, hcrc, _⟩ := flushTail_fields cfg r.1 r.2.1 r.2.2
    show _ = crcValue _
    rw [hbuf, hcrc]
    exact h1

/-- On success in buffered mode with verification on, `Flush` leaves the
buffer empty. -/
theorem flushStep_empties (cfg : WCfg) (hpdv : cfg.pdv = true)
    (hbdwc : cfg.bdwc = true) (hdir : cfg.direct = false) :
    forall st grants o fuel st2 o2,
      flushStep cfg st grants o fuel = some (true, st2, o2) ->
      st2.buf.data = [] := by
  intro st grants o fuel st2 o2 h
  simp only [flushStep, hpdv, hbdwc, hdir, and_self, if_true,
    Bool.false_eq_true, if_false] at h
  split at h
  · exact absurd h (by simp)
  · rename_i r heq
    simp only [Option.some.injEq] at h
    have hok : (flushTail cfg r.1 r.2.1 r.2.2).1 = true := by rw [h]
    have hst2 : (flushTail cfg r.1 r.2.1 r.2.2).2.1 = st2 := by rw [h]
    obtain ⟨hbuf, _, himp⟩ := flushTail_fields cfg r.1 r.2.1 r.2.2
    have hok1 : r.1 = true := himp hok
    have h1 : r.2.1.buf.data = [] := by
      split at heq
      · have hw := wbwc_empties st st.buf.data o
        injection heq with heq2
        rw [heq2] at hw
        exact hw hok1
      · injection heq with heq2
        rw [← heq2]
        rename_i hlen
        cases hd : st.buf.data with
        | nil => rfl
        | cons a l => rw [hd] at hlen; simp at hlen
    rw [← hst2, hbuf]
    exact h1

/-- The copy-and-flush loop preserves the checksum invariant: each copied
chunk extends the running checksum, and the intermediate flushes preserve
it. -/
theorem appendChunkLoop_inv (cfg : WCfg) (hpdv : cfg.pdv = true)
    (hbdwc : cfg.bdwc = true) :
    forall fuel st src grants o ok st2 o2,
      appendChunkLoop cfg fuel st src grants o = some (ok, st2, o2) ->
      CrcInv st -> CrcInv st2 := by
  intro fuel
  induction fuel with
  | zero =>
      intro st src grants o ok st2 o2 h _
      simp [appendChunkLoop] at h
  | succ fuel ih =>
      intro st src grants o ok st2 o2 h hinv
      simp only [appendChunkLoop, hpdv, hbdwc, and_self, if_true] at h
      split at h
      · simp only [Option.some.injEq, Prod.mk.injEq] at h
        obtain ⟨_, hst2, _⟩ := h
        rw [← hst2]
        exact hinv
      · have hinv1 : crcExtend st.crc
            (List.take (min src.length (st.buf.cap - st.buf.data.length))
              src)
          = crcValue (st.buf.data ++
            List.take (min src.length (st.buf.cap - st.buf.data.length))
              src) := by
          rw [hinv, crcExtend_value]
        split at h
        · simp only [Option.some.injEq, Prod.mk.injEq] at h
          obtain ⟨_, hst2, _⟩ := h
          rw [← hst2]
          exact hinv1
        · split at h
          · exact absurd h (by simp)
          · rename_i ok1 st1 o1 heq
            have h1 : CrcInv st1 :=
              flushStep_inv cfg hpdv hbdwc _ _ _ _ _ _ _ heq hinv1
            split at h
            · exact ih _ _ _ _ _ _ _ h h1
            · simp only [Option.some.injEq, Prod.mk.injEq] at h
              obtain ⟨_, hst2, _⟩ := h
              rw [← hst2]
              exact h1

theorem getD_replicate_zero (n i : Nat) :
    (List.replicate n (0 : Nat)).getD i 0 = 0 := by
  induction n generalizing i with
  | zero => simp [List.getD]
  | succ n ih =>
      cases i with
      | zero => rfl
      | succ i => exact ih i

theorem map_range_zero (f : Nat -> Nat) (n : Nat)
    (hf : forall i, i < n -> f i = 0) :
    (List.range n).map f = List.replicate n 0 := by
  induction n with
  | zero => rfl
  | succ n ih =>
      rw [List.range_succ, List.map_append, List.replicate_succ',
        ih (fun i hi => hf i (by omega)), List.map_cons, List.map_nil,
        hf n (by omega)]

/-- `Append` and the checksum invariant: on success the invariant is
restored; on failure it still holds unless the append bypassed the buffer,
in which case the buffer is empty while the running checksum holds the
checksum of the bypassed bytes. -/
theorem appendStep_inv (cfg : WCfg) (hpdv : cfg.pdv = true)
    (hbdwc : cfg.bdwc = true) :
    forall st data handoff grants o fuel ok st2 o2,
      (handoff = 0 ∨ handoff = crcValue data) ->
      appendStep cfg st data handoff grants o fuel = some (ok, st2, o2) ->
      CrcInv st ->
      (ok = true -> CrcInv st2) ∧
      (ok = false -> CrcInv st2 ∨
        (st2.buf.data = [] ∧
          st2.crc = (if handoff = 0 then crcValue data
            else handoff))) := by
  intro st data handoff grants o fuel ok st2 o2 hhd h hinv
  simp only [appendStep, hpdv, hbdwc, true_and, and_self, if_true] at h
  split at h
  · exact absurd h (by simp)
  · rename_i fok stf o1 heq
    have hfinv : CrcInv stf := by
      split at heq
      · exact flushStep_inv cfg hpdv hbdwc _ _ _ _ _ _ _ heq hinv
      · injection heq with heq2
        simp only [Prod.mk.injEq] at heq2
        obtain ⟨-, hstf, -⟩ := heq2
        rw [← hstf]
        exact hinv
    have hfempty : cfg.direct = false ->
        stf.buf.cap - stf.buf.data.length < data.length ->
        fok = true -> stf.buf.data = [] := by
      intro hdir hnofit hfok
      subst hfok
      split at heq
      · exact flushStep_empties cfg hpdv hbdwc hdir _ _ _ _ _ _ heq
      · rename_i hcond
        injection heq with heq2
        simp only [Prod.mk.injEq] at heq2
        obtain ⟨-, hstf, -⟩ := heq2
        rw [← hstf] at hnofit ⊢
        show st.buf.data = []
        have hlen0 : st.buf.data.length = 0 := by
          by_contra hne
          exact hcond ⟨hdir, hnofit, Nat.pos_of_ne_zero hne⟩
        exact List.eq_nil_of_length_eq_zero hlen0
    split at h
    · rename_i hfok
      simp only [Option.some.injEq, Prod.mk.injEq] at h
      obtain ⟨hok, hst2, -⟩ := h
      subst hst2
      rw [← hok]
      exact ⟨fun hc => Bool.noConfusion hc, fun _ => Or.inl hfinv⟩
    · rename_i hfok
      have hfok2 : fok = true := by
        cases fok with
        | true => rfl
        | false => exact absurd rfl hfok
      split at h
      · exact absurd h (by simp)
      · rename_i ok3 st3 o3 hceq
        have hcore : (ok3 = true -> CrcInv st3) ∧
            (ok3 = false -> CrcInv st3 ∨
              (st3.buf.data = [] ∧
                st3.crc = (if handoff = 0 then crcValue data
                  else handoff))) := by
          split at hceq
          · rename_i hh0
            split at hceq
            · split at hceq
              · rename_i hor hfit
                have hk : min data.length
                    (stf.buf.cap - stf.buf.data.length)
                    = data.length := by omega
                rw [hk, List.take_length] at hceq
                simp only [beq_self_eq_true, Option.some.injEq,
                  Prod.mk.injEq] at hceq
                obtain ⟨hok3, hst3, -⟩ := hceq
                constructor
                · intro _
                  rw [← hst3]
                  show crcCombine stf.crc handoff data.length
                    = crcValue (stf.buf.data ++ data)
                  rcases hhd with hzz | hv
                  · exact absurd hzz hh0
                  · rw [hv, hfinv, crcCombine_value]
                · intro hc
                  rw [← hok3] at hc
                  exact Bool.noConfusion hc
              · have hcl := appendChunkLoop_inv cfg hpdv hbdwc
                  _ _ _ _ _ _ _ _ hceq hfinv
                exact ⟨fun _ => hcl, fun _ => Or.inl hcl⟩
            · rename_i hor
              have hdir : cfg.direct = false := by
                cases hcd : cfg.direct with
                | false => rfl
                | true => exact absurd (Or.inl hcd) hor
              have hnofit : stf.buf.cap - stf.buf.data.length
                  < data.length := by
                rcases Nat.lt_or_ge (stf.buf.cap - stf.buf.data.length)
                    data.length with hlt | hge
                · exact hlt
                · exact absurd (Or.inr hge) hor
              have hemp := hfempty hdir hnofit hfok2
              simp only [writeBufferedWithChecksum, nextOk] at hceq
              split at hceq
              · simp only [Option.some.injEq, Prod.mk.injEq] at hceq
                obtain ⟨hok3, hst3, -⟩ := hceq
                constructor
                · intro _
                  rw [← hst3]
                  exact rfl
                · intro hc
                  rw [← hok3] at hc
                  exact Bool.noConfusion hc
              · simp only [Option.some.injEq, Prod.mk.injEq] at hceq
                obtain ⟨hok3, hst3, -⟩ := hceq
                constructor
                · intro hc
                  rw [← hok3] at hc
                  exact Bool.noConfusion hc
                · intro _
                  right
                  rw [← hst3]
                  refine ⟨hemp, ?_⟩
                  rw [if_neg hh0]
          · rename_i hh0
            have hz : handoff = 0 := of_not_not hh0
            split at hceq
            · have hcl := appendChunkLoop_inv cfg hpdv hbdwc
                _ _ _ _ _ _ _ _ hceq hfinv
              exact ⟨fun _ => hcl, fun _ => Or.inl hcl⟩
            · rename_i hor
              have hdir : cfg.direct = false := by
                cases hcd : cfg.direct with
                | false => rfl
                | true => exact absurd (Or.inl hcd) hor
              have hnofit : stf.buf.cap - stf.buf.data.length
                  < data.length := by
                rcases Nat.lt_or_ge stf.buf.cap data.length with hlt | hge
                · omega
                · exact absurd (Or.inr hge) hor
              have hemp := hfempty hdir hnofit hfok2
              simp only [writeBufferedWithChecksum, nextOk] at hceq
              split at hceq
              · simp only [Option.some.injEq, Prod.mk.injEq] at hceq
                obtain ⟨hok3, hst3, -⟩ := hceq
                constructor
                · intro _
                  rw [← hst3]
                  exact rfl
                · intro hc
                  rw [← hok3] at hc
                  exact Bool.noConfusion hc
              · simp only [Option.some.injEq, Prod.mk.injEq] at hceq
                obtain ⟨hok3, hst3, -⟩ := hceq
                constructor
                · intro hc
                  rw [← hok3] at hc
                  exact Bool.noConfusion hc
                · intro _
                  right
                  rw [← hst3]
                  refine ⟨hemp, ?_⟩
                  rw [if_pos hz]
        simp only [Option.some.injEq, Prod.mk.injEq] at h
        obtain ⟨hok, hst2, -⟩ := h
        subst hok
        rw [← hst2]
        obtain ⟨hc1, hc2⟩ := hcore
        constructor
        · intro hok3
          rw [if_pos hok3]
          exact hc1 hok3
        · intro hok3
          have hne : ¬ ok3 = true := by
            rw [hok3]
            decide
          rw [if_neg hne]
          exact hc2 hok3


/-- `Pad` preserves the checksum invariant when the pad fits in the free
buffer space: the padded zeros are appended to the buffer and the running
checksum is extended over exactly that region at the end. -/
theorem padStep_inv (cfg : WCfg) (hpdv : cfg.pdv = true) :
    forall st padBytes grants o fuel ok st2 o2,
      padBytes ≤ st.buf.cap - st.buf.data.length ->
      padStep cfg st padBytes grants o fuel = some (ok, st2, o2) ->
      CrcInv st -> CrcInv st2 := by
  intro st padBytes grants o fuel ok st2 o2 hfit h hinv
  cases fuel with
  | zero => simp [padStep, padLoop] at h
  | succ fuel =>
      simp only [padStep, padLoop, hpdv, if_true] at h
      by_cases hz : padBytes = 0
      · subst hz
        rw [if_pos rfl] at h
        simp only [Option.some.injEq, Prod.mk.injEq, if_true] at h
        obtain ⟨_, hst2, _⟩ := h
        rw [← hst2]
        show st.crc = crcValue st.buf.data
        exact hinv
      · rw [if_neg hz] at h
        have hmin : min (st.buf.cap - st.buf.data.length) padBytes
            = padBytes := by omega
        rw [hmin, Nat.sub_self, if_pos rfl] at h
        simp only [Option.some.injEq, Prod.mk.injEq, if_true] at h
        obtain ⟨_, hst2, _⟩ := h
        rw [← hst2]
        have hregion : (List.range padBytes).map
            (fun i => (st.buf.data
              ++ List.replicate padBytes 0).getD
                (st.buf.data.length + i) 0)
          = List.replicate padBytes 0 := by
          refine map_range_zero _ _ ?_
          intro i hi
          rw [List.getD_append_right _ _ _ _ (by omega)]
          rw [show st.buf.data.length + i - st.buf.data.length = i
            from by omega]
          exact getD_replicate_zero padBytes i
        show crcExtend st.crc _ = crcValue (st.buf.data
          ++ List.replicate padBytes 0)
        rw [hregion, hinv, crcExtend_value]

/-- Claim C4 (amended): when `perform_data_verification_` and
`buffered_data_with_checksum_` are enabled, `buffered_data_crc32c_checksum_`
equals the CRC32C of exactly the bytes currently in the buffer: after every
`Flush` (and the write drivers it dispatches to), success or error; after
every `Append` carrying a correct (or absent) caller checksum that returns
success; after every failed `Append` except one that bypassed the buffer —
which leaves the buffer empty while the running checksum holds the checksum
of the bypassed data; and after every `Pad` that fits in the free buffer
space (a pad needing an intermediate flush extends the checksum over a
stale buffer region, and a pad whose intermediate flush fails returns
before extending the checksum at all). -/
theorem buffered_crc_invariant (cfg : WCfg) (hpdv : cfg.pdv = true)
    (hbdwc : cfg.bdwc = true) :
    (forall st grants o fuel ok st2 o2,
      flushStep cfg st grants o fuel = some (ok, st2, o2) ->
      CrcInv st -> CrcInv st2) ∧
    (forall st data handoff grants o fuel ok st2 o2,
      (handoff = 0 ∨ handoff = crcValue data) ->
      appendStep cfg st data handoff grants o fuel = some (ok, st2, o2) ->
      CrcInv st ->
      (ok = true -> CrcInv st2) ∧
      (ok = false -> CrcInv st2 ∨
        (st2.buf.data = [] ∧
          st2.crc = (if handoff = 0 then crcValue data
            else handoff)))) ∧
    (forall st padBytes grants o fuel ok st2 o2,
      padBytes ≤ st.buf.cap - st.buf.data.length ->
      padStep cfg st padBytes grants o fuel = some (ok, st2, o2) ->
      CrcInv st -> CrcInv st2) :=
  ⟨flushStep_inv cfg hpdv hbdwc, appendStep_inv cfg hpdv hbdwc,
    padStep_inv cfg hpdv⟩

/-- A writer configuration with both verification flags on, buffered mode,
and a 4-byte buffer capacity ceiling. -/
def c4cfg : WCfg := ⟨false, 0, 4, true, true⟩

/-- A fresh writer state with an empty 4-byte buffer. -/
def c4st : WFW := ⟨⟨[], 4, 1⟩, 0, 0, false, 0, 0⟩

/-- Counterexample to claim C4 as stated: with both verification flags on,
an `Append` of 8 bytes into a writer whose buffer capacity and
`max_buffer_size_` are 4 takes the bypass path
(`WriteBufferedWithChecksum`); when the sink append fails, the writer is
left with an empty buffer but with `buffered_data_crc32c_checksum_` still
holding the checksum of the bypassed data — not the CRC32C of the bytes
currently in the buffer. -/
theorem append_bypass_error_counterexample :
    CrcInv c4st ∧
    appendStep c4cfg c4st [1, 2, 3, 4, 5, 6, 7, 8]
        (crcValue [1, 2, 3, 4, 5, 6, 7, 8]) [] [false] 9
      = some (false,
          { c4st with
            pendingSync := true,
            crc := crcValue [1, 2, 3, 4, 5, 6, 7, 8] }, []) ∧
    ¬ CrcInv { c4st with
        pendingSync := true,
        crc := crcValue [1, 2, 3, 4, 5, 6, 7, 8] } := by
  decide

/-- Witness for C4 (amended) at the concrete configuration `c4cfg`. -/
theorem buffered_crc_invariant_witness :
    (c4cfg.pdv = true ∧ c4cfg.bdwc = true) ∧
    ((forall st grants o fuel ok st2 o2,
      flushStep c4cfg st grants o fuel = some (ok, st2, o2) ->
      CrcInv st -> CrcInv st2) ∧
    (forall st data handoff grants o fuel ok st2 o2,
      (handoff = 0 ∨ handoff = crcValue data) ->
      appendStep c4cfg st data handoff grants o fuel
          = some (ok, st2, o2) ->
      CrcInv st ->
      (ok = true -> CrcInv st2) ∧
      (ok = false -> CrcInv st2 ∨
        (st2.buf.data = [] ∧
          st2.crc = (if handoff = 0 then crcValue data
            else handoff)))) ∧
    (forall st padBytes grants o fuel ok st2 o2,
      padBytes ≤ st.buf.cap - st.buf.data.length ->
      padStep c4cfg st padBytes grants o fuel = some (ok, st2, o2) ->
      CrcInv st -> CrcInv st2)) :=
  ⟨⟨rfl, rfl⟩, buffered_crc_invariant c4cfg rfl rfl⟩

/-! ## Close (`WritableFileWriter::Close`) -/

/-- The sub-steps of `WritableFileWriter::Close`, in program order. -/
inductive CloseSub where
  | flushSub
  | truncateSub
  | fsyncSub
  | sinkCloseSub
  deriving DecidableEq, Repr

/-- The close-relevant state of the writer: whether `writable_file_` is
still held, `use_direct_io()`, whether a whole-file checksum generator is
present, and `checksum_finalized_`. -/
structure CloseState where
  handle : Bool
  direct : Bool
  hasGen : Bool
  finalized : Bool
  deriving DecidableEq, Repr

/-- `WritableFileWriter::Close` at the orchestration level: the sub-step
outcomes are supplied as oracles (`none` = OK, `some e` = an error).
Returns the returned status, the new state, the sub-steps attempted in
order, and whether the whole-file checksum generator was finalized during
this call.  The source: an early OK return when the handle is already
released; `s = Flush()`; in direct mode `interim = Truncate(filesize_)` and
— only if that succeeded — `interim = Fsync()`, folding `interim` into `s`
only when `s` is still OK; the sink `Close`, folded the same way; the
handle is released; the checksum generator is finalized only when the
overall status is OK. -/
def closeStep (st : CloseState)
    (flushRes truncRes fsyncRes closeRes : Option Nat) :
    Option Nat × CloseState × List CloseSub × Bool :=
  if st.handle = false then (none, st, [], false)
  else
    let s1 := flushRes
    let tf : Option Nat × List CloseSub :=
      if st.direct then
        if truncRes = none then
          ((if fsyncRes ≠ none ∧ s1 = none then fsyncRes else s1),
            [.flushSub, .truncateSub, .fsyncSub])
        else
          ((if s1 = none then truncRes else s1),
            [.flushSub, .truncateSub])
      else (s1, [.flushSub])
    let s3 := if closeRes ≠ none ∧ tf.1 = none then closeRes else tf.1
    let doFin := s3 = none ∧ st.hasGen = true ∧ st.finalized = false
    (s3,
      { st with
        handle := false,
        finalized := if doFin then true else st.finalized },
      tf.2 ++ [.sinkCloseSub],
      if doFin then true else false)

/-- Counterexample to claim C7 as stated: in direct-I/O mode, when the
truncate sub-step fails, a single `Close` does not attempt the fsync
sub-step (the source gates `Fsync` on `interim.ok()` after `Truncate`), so
`Close` does not attempt all of its sub-steps after an earlier sub-step
failed. -/
theorem close_skips_fsync_counterexample :
    (closeStep ⟨true, true, true, false⟩ none (some 1) none none).2.2.1
      = [.flushSub, .truncateSub, .sinkCloseSub] ∧
    CloseSub.fsyncSub ∉
      (closeStep ⟨true, true, true, false⟩ none (some 1) none
        none).2.2.1 ∧
    (closeStep ⟨true, true, true, false⟩ none (some 1) none none).1
      = some 1 := by
  decide

/-- Claim C7 (amended): `Close` is idempotent once the sink handle has been
released (every subsequent call returns OK, attempts nothing and changes
nothing); a single close attempts flush, truncate (in direct-I/O mode) and
the sink close even after earlier sub-steps failed, but attempts fsync only
when the truncate succeeded; it returns the earliest non-OK status among
the attempted sub-steps, and it finalizes the whole-file checksum generator
exactly once, only on overall success. -/
theorem close_spec (st : CloseState)
    (flushRes truncRes fsyncRes closeRes : Option Nat)
    (hh : st.handle = true) :
    (CloseSub.flushSub ∈
        (closeStep st flushRes truncRes fsyncRes closeRes).2.2.1 ∧
      CloseSub.sinkCloseSub ∈
        (closeStep st flushRes truncRes fsyncRes closeRes).2.2.1 ∧
      (st.direct = true -> CloseSub.truncateSub ∈
        (closeStep st flushRes truncRes fsyncRes closeRes).2.2.1) ∧
      (CloseSub.fsyncSub ∈
          (closeStep st flushRes truncRes fsyncRes closeRes).2.2.1
        <-> (st.direct = true ∧ truncRes = none))) ∧
    (closeStep st flushRes truncRes fsyncRes closeRes).1
      = (if flushRes ≠ none then flushRes
        else if st.direct = true ∧ truncRes ≠ none then truncRes
        else if st.direct = true ∧ truncRes = none ∧ fsyncRes ≠ none then
          fsyncRes
        else closeRes) ∧
    (closeStep st flushRes truncRes fsyncRes closeRes).2.1.handle
      = false ∧
    ((closeStep st flushRes truncRes fsyncRes closeRes).2.2.2 = true
      <-> ((closeStep st flushRes truncRes fsyncRes closeRes).1 = none ∧
        st.hasGen = true ∧ st.finalized = false)) ∧
    (forall f2 t2 y2 c2,
      closeStep (closeStep st flushRes truncRes fsyncRes closeRes).2.1
          f2 t2 y2 c2
        = (none, (closeStep st flushRes truncRes fsyncRes closeRes).2.1,
            [], false)) := by
  obtain ⟨hdl, dir, gen, fin⟩ := st
  simp only at hh
  subst hh
  rcases dir <;> rcases gen <;> rcases fin <;>
    rcases flushRes with - | e1 <;> rcases truncRes with - | e2 <;>
    rcases fsyncRes with - | e3 <;> rcases closeRes with - | e4 <;>
      simp [closeStep]


/-- Witness for C7 (amended): a direct-I/O close whose flush fails but
whose remaining sub-steps succeed. -/
theorem close_spec_witness :
    ((⟨true, true, true, false⟩ : CloseState).handle = true) ∧
    ((CloseSub.flushSub ∈
        (closeStep ⟨true, true, true, false⟩ (some 7) none none
          none).2.2.1 ∧
      CloseSub.sinkCloseSub ∈
        (closeStep ⟨true, true, true, false⟩ (some 7) none none
          none).2.2.1 ∧
      ((⟨true, true, true, false⟩ : CloseState).direct = true ->
        CloseSub.truncateSub ∈
          (closeStep ⟨true, true, true, false⟩ (some 7) none none
            none).2.2.1) ∧
      (CloseSub.fsyncSub ∈
          (closeStep ⟨true, true, true, false⟩ (some 7) none none
            none).2.2.1
        <-> ((⟨true, true, true, false⟩ : CloseState).direct = true ∧
          (none : Option Nat) = none))) ∧
    (closeStep ⟨true, true, true, false⟩ (some 7) none none none).1
      = (if (some 7 : Option Nat) ≠ none then some 7
        else if (⟨true, true, true, false⟩ : CloseState).direct = true ∧
            (none : Option Nat) ≠ none then none
        else if (⟨true, true, true, false⟩ : CloseState).direct = true ∧
            (none : Option Nat) = none ∧ (none : Option Nat) ≠ none then
          none
        else none) ∧
    (closeStep ⟨true, true, true, false⟩ (some 7) none none
        none).2.1.handle = false ∧
    ((closeStep ⟨true, true, true, false⟩ (some 7) none none
        none).2.2.2 = true
      <-> ((closeStep ⟨true, true, true, false⟩ (some 7) none none
          none).1 = none ∧
        (⟨true, true, true, false⟩ : CloseState).hasGen = true ∧
        (⟨true, true, true, false⟩ : CloseState).finalized = false)) ∧
    (forall f2 t2 y2 c2,
      closeStep (closeStep ⟨true, true, true, false⟩ (some 7) none none
          none).2.1 f2 t2 y2 c2
        = (none, (closeStep ⟨true, true, true, false⟩ (some 7) none none
            none).2.1, [], false))) :=
  ⟨rfl, close_spec ⟨true, true, true, false⟩ (some 7) none none none rfl⟩

end RocksLog
